import Mathlib

/-!
# Verification of the AlgoDraft agent-handler core (`backend/agent_handler.py`)

Shallow embedding of the response-processing and conversation core:
`InputProcessor.sanitize`, `OutputParser.parse`, `ConversationManager`
(`add_message` / `get_history`), `PromptManager`, and
`AgentHandler._invoke_model`'s retry loop.

Strings are modelled as `List Char` (`Str`).  Python's `str.strip`, the
`re` character classes `\w` and `\s` and the whitespace set of `str.strip`
are modelled over their ASCII portion, which is the fragment the program's
behaviour and the claims depend on.
-/

abbrev Str := List Char

/-- ASCII model of the whitespace set used by Python's `str.strip()` and by
the regex class `\s`: space, tab, newline, carriage return, vertical tab,
form feed. -/
def isPyWs (c : Char) : Bool :=
  c == ' ' || c == '\t' || c == '\n' || c == '\r' || c == '\x0b' || c == '\x0c'

/-- ASCII model of the regex class `\w`: alphanumerics and underscore. -/
def isWordChar (c : Char) : Bool :=
  c.isAlphanum || c == '_'

/-- Horizontal whitespace, the regex class `[ \t]`. -/
def isHTab (c : Char) : Bool :=
  c == ' ' || c == '\t'

/-- `str.lstrip()` over the ASCII whitespace set. -/
def lstrip (s : Str) : Str := s.dropWhile isPyWs

/-- `str.rstrip()` over the ASCII whitespace set. -/
def rstrip (s : Str) : Str := (s.reverse.dropWhile isPyWs).reverse

/-- `str.strip()`: drop leading and trailing whitespace. -/
def pyStrip (s : Str) : Str := rstrip (lstrip s)

/-- Does the string start with a newline? -/
def startsNl : Str → Bool
  | [] => false
  | c :: _ => c == '\n'

/-- Does the string start with two newlines? -/
def startsTwoNl : Str → Bool
  | a :: b :: _ => a == '\n' && b == '\n'
  | _ => false

/-- `re.sub(r"[ \t]+\n", "\n", text)`: drop every space/tab that is
followed by zero or more spaces/tabs and then a newline.  Processing the
string from the right, a space/tab is dropped exactly when the already
processed tail begins with a newline; this deletes precisely the maximal
`[ \t]+` runs sitting in front of a `\n`, the same transformation the
regex substitution performs. -/
def subHTabNl : Str → Str
  | [] => []
  | c :: cs =>
    if isHTab c && startsNl (subHTabNl cs) then subHTabNl cs
    else c :: subHTabNl cs

/-- `re.sub(r"\n{3,}", "\n\n", text)`: collapse every run of three or more
newlines to exactly two.  Processing from the right, a newline is dropped
exactly when the already processed tail begins with two newlines; this
shrinks every maximal `\n`-run of length `k ≥ 3` to its last two newlines,
the same result as the regex substitution. -/
def subTripleNl : Str → Str
  | [] => []
  | c :: cs =>
    if c == '\n' && startsTwoNl (subTripleNl cs) then subTripleNl cs
    else c :: subTripleNl cs

/-- `text.replace("\x00", "")`. -/
def removeNulls (s : Str) : Str := s.filter (fun c => !(c == '\x00'))

/-- `InputProcessor.sanitize`: strip, drop trailing horizontal whitespace
before newlines, collapse 3+ newlines to two, remove null bytes.  The
Python guard `if not text: return ""` is subsumed: every stage maps the
empty string to itself. -/
def sanitize (t : Str) : Str :=
  removeNulls (subTripleNl (subHTabNl (pyStrip t)))

/-! ## Normal-form predicates for sanitized text -/

/-- The first character, if any, is not whitespace. -/
def headNotWs : Str → Bool
  | [] => true
  | c :: _ => !isPyWs c

/-- The last character, if any, is not whitespace. -/
def lastNotWs : Str → Bool
  | [] => true
  | [c] => !isPyWs c
  | _ :: c :: cs => lastNotWs (c :: cs)

/-- No space/tab immediately followed by a newline. -/
def noTabNl : Str → Bool
  | a :: b :: l => !(isHTab a && b == '\n') && noTabNl (b :: l)
  | _ => true

/-- No three consecutive newlines. -/
def noTripleNl : Str → Bool
  | a :: b :: c :: l => !(a == '\n' && b == '\n' && c == '\n') && noTripleNl (b :: c :: l)
  | _ => true

/-! ## Data classes of the agent handler -/

/-- `CodeBlock` dataclass: one extracted fenced code region. -/
structure CodeBlock where
  language : Str
  content : Str
  label : Str := []
deriving DecidableEq

/-- `ResponseSection` dataclass: one parsed section, `type` is
`"text"`, `"code"` or `"error"`. -/
structure ResponseSection where
  type : String
  content : Str
  language : Str := []
deriving DecidableEq

/-- `AgentResponse` dataclass with the Python field defaults. -/
structure AgentResponse where
  sections : List ResponseSection := []
  code_blocks : List CodeBlock := []
  summary : Str := []
  has_code : Bool := false
  raw : Str := []
  error : Option Str := none
  model_used : Str := []
  provider_used : Str := []
deriving DecidableEq

/-! ## The fence regex of `OutputParser`

The pattern is `re.compile(r"```(\w*)\s*\n(.*?)```", re.DOTALL)` used via
`finditer`.  A match attempt at a position consumes the three-backtick
opener, then the maximal `\w*` run (the language tag), then needs a
newline inside the following maximal whitespace run — backtracking of the
greedy `\s*` selects the *last* newline of that run — and finally the lazy
`(.*?)` body runs to the *first* subsequent three-backtick closer.  The
whitespace run after the last newline contains no backtick, so the first
closer does not depend on which newline the engine picks, and giving back
characters from `\w*` can never make `\s*\n` match; hence the single
candidate computed below is exactly the regex's match. -/

/-- The backtick character (spelled via its code point). -/
def tick : Char := Char.ofNat 96

/-- Does the string start with three backticks? -/
def startsTicks3 : Str → Bool
  | a :: b :: c :: _ => a == tick && b == tick && c == tick
  | _ => false

/-- Find the first occurrence of three backticks; return the part before
it and the part after it (the lazy `(.*?)` body and the rest). -/
def findClose : Str → Option (Str × Str)
  | [] => none
  | c :: cs =>
    if startsTicks3 (c :: cs) then some ([], cs.drop 2)
    else
      match findClose cs with
      | some (b, r) => some (c :: b, r)
      | none => none

/-- Attempt to match the fence pattern at the start of `s`.  On success
returns `(language-tag, body, rest-after-match)`. -/
def matchFenceAt (s : Str) : Option (Str × Str × Str) :=
  if startsTicks3 s then
    let s0 := s.drop 3
    let s1 := s0.dropWhile isWordChar
    let ws := s1.takeWhile isPyWs
    if ws.contains '\n' then
      let wsTail := (ws.reverse.takeWhile (fun c => !(c == '\n'))).reverse
      match findClose (wsTail ++ s1.dropWhile isPyWs) with
      | some (body, rest) => some (s0.takeWhile isWordChar, body, rest)
      | none => none
    else none
  else none

/-- Find the first (leftmost) fence match in `s`, as `finditer` does,
returning `(text-before-match, language, body, rest-after-match)`. -/
def findFence : Str → Option (Str × Str × Str × Str)
  | [] => none
  | c :: cs =>
    match matchFenceAt (c :: cs) with
    | some (l, b, r) => some ([], l, b, r)
    | none =>
      match findFence cs with
      | some (pre, l, b, r) => some (c :: pre, l, b, r)
      | none => none

/-- All fence matches in scan order plus the trailing text after the last
match.  Fuelled recursion: every match consumes at least seven characters,
so fuel `s.length` can never run out before the scan is finished. -/
def scanAux : Nat → Str → List (Str × Str × Str) × Str
  | 0, s => ([], s)
  | fuel + 1, s =>
    match findFence s with
    | none => ([], s)
    | some (before, lang, body, rest) =>
      let p := scanAux fuel rest
      ((before, lang, body) :: p.1, p.2)

/-- `finditer` over the whole string. -/
def scanFences (s : Str) : List (Str × Str × Str) × Str :=
  scanAux s.length s

/-- `match.group(1) or "text"`. -/
def defaultLang (l : Str) : Str := if l = [] then "text".toList else l

/-- The error message of the empty-input branch of `parse`. -/
def emptyRespMsg : Str := "Empty response from AI model.".toList

/-- The loop body of `OutputParser.parse`: for each match append (in
order) an optional text section for the stripped preceding text, a code
section, a `CodeBlock`, and record the text part.  `acc` is the triple
`(sections, code_blocks, text_parts)` that the Python code mutates. -/
def loopMatches (acc : List ResponseSection × List CodeBlock × List Str) :
    List (Str × Str × Str) → List ResponseSection × List CodeBlock × List Str
  | [] => acc
  | (before, lang, body) :: ms =>
    loopMatches
      (acc.1 ++ (if pyStrip before ≠ [] then [⟨"text", pyStrip before, []⟩] else []) ++
        [⟨"code", pyStrip body, defaultLang lang⟩],
       acc.2.1 ++ [⟨defaultLang lang, pyStrip body, []⟩],
       acc.2.2 ++ (if pyStrip before ≠ [] then [pyStrip before] else [])) ms

/-- `OutputParser.parse`.  Mirrors the Python control flow: empty/blank
input short-circuits to an error response (with `raw` equal to the
input, via `raw_text or ""`); otherwise the input is stripped, the fence
matches are walked in order, a trailing text section is added for any
remaining stripped text, and a single text section is the fallback if
nothing was emitted. -/
def parse (raw_text : Str) : AgentResponse :=
  if pyStrip raw_text = [] then
    { raw := raw_text
      error := some emptyRespMsg
      sections := [⟨"error", emptyRespMsg, []⟩] }
  else
    let rt := pyStrip raw_text
    let p := scanFences rt
    let acc := loopMatches ([], [], []) p.1
    let remaining := pyStrip p.2
    let acc2 :=
      if remaining ≠ [] then (acc.1 ++ [⟨"text", remaining, []⟩], acc.2.1, acc.2.2 ++ [remaining])
      else acc
    let acc3 :=
      if acc2.1 = [] then ([⟨"text", rt, []⟩], acc2.2.1, [rt])
      else acc2
    { sections := acc3.1
      code_blocks := acc3.2.1
      summary := List.intercalate "\n\n".toList acc3.2.2
      has_code := decide (0 < acc3.2.1.length)
      raw := rt }

/-! ## Spec-side description of `parse` (the claim's wording) -/

/-- Spec wording, per match: a text section for the non-empty trimmed
preceding text (omitted when empty), then a code section with the fence's
tag (`"text"` when untagged) and the trimmed body. -/
def specSecsOfMatch (m : Str × Str × Str) : List ResponseSection :=
  (if pyStrip m.1 ≠ [] then [⟨"text", pyStrip m.1, []⟩] else []) ++
    [⟨"code", pyStrip m.2.2, defaultLang m.2.1⟩]

/-- Spec wording: the matching `CodeBlock` for a match. -/
def specCodeBlockOfMatch (m : Str × Str × Str) : CodeBlock :=
  ⟨defaultLang m.2.1, pyStrip m.2.2, []⟩

/-- Spec wording: the text parts contributed by a match. -/
def specTextPartsOfMatch (m : Str × Str × Str) : List Str :=
  if pyStrip m.1 ≠ [] then [pyStrip m.1] else []

/-- Spec wording of the whole response when at least one fence matched:
sections in scan order (text before each fence when non-empty, the code
section, then a trailing text section), the code blocks in the same order,
and the summary joining the text parts with a blank line. -/
def specAssembled (rt : Str) (p : List (Str × Str × Str) × Str) : AgentResponse :=
  { sections := p.1.flatMap specSecsOfMatch ++
      (if pyStrip p.2 ≠ [] then [⟨"text", pyStrip p.2, []⟩] else [])
    code_blocks := p.1.map specCodeBlockOfMatch
    summary := List.intercalate "\n\n".toList
      (p.1.flatMap specTextPartsOfMatch ++ (if pyStrip p.2 ≠ [] then [pyStrip p.2] else []))
    has_code := true
    raw := rt
    error := none }

/-! ## The orchestrator error path -/

/-- The uniform error response built in every `except` branch of
`AgentHandler.query` / `analyze` / `chat` / `generate_code`:
`AgentResponse(error=str(e), sections=[ResponseSection(type="error",
content=str(e))])`, all other fields left at their dataclass defaults. -/
def errorResponse (msg : Str) : AgentResponse :=
  { error := some msg, sections := [⟨"error", msg, []⟩] }

/-! ## ConversationManager

A message keeps only `role` and `content`; the `timestamp` field
(wall-clock `time.time()`) and the session's `created_at` / `last_active`
bookkeeping play no part in the claims and are modelled out.  A manager's
session map is an association list in insertion order (Python dict). -/

structure Msg where
  role : String
  content : String
deriving DecidableEq

/-- `m.to_dict()`: the `{role, content}` pair `get_history` returns. -/
def msgPair (m : Msg) : String × String := (m.role, m.content)

/-- `m.role == "system"`. -/
def isSystem (m : Msg) : Bool := m.role == "system"

/-- Python's slice `a[i:]` for an `int` index `i` (possibly negative):
a negative index counts from the end and clamps at the start. -/
def pyDropFrom {α : Type} (a : List α) (i : Int) : List α :=
  if i < 0 then a.drop ((a.length + i).toNat) else a.drop i.toNat

/-- `ConversationManager.add_message` on one session's message list:
append, then if the total exceeds `max_turns * 2`, rebuild the list as all
system messages followed by the Python slice
`non_system[len(non_system) - keep:]` of the non-system messages. -/
def add_message (maxTurns : Nat) (msgs : List Msg) (m : Msg) : List Msg :=
  if (msgs ++ [m]).length > maxTurns * 2 then
    ((msgs ++ [m]).filter isSystem) ++
      pyDropFrom ((msgs ++ [m]).filter (fun x => !isSystem x))
        ((((msgs ++ [m]).filter (fun x => !isSystem x)).length : Int) - (maxTurns * 2 : Nat))
  else msgs ++ [m]

/-- The message list of one session after a sequence of `add_message`
calls starting from the empty session. -/
def runAdds (maxTurns : Nat) (adds : List Msg) : List Msg :=
  adds.foldl (add_message maxTurns) []

/-- `ConversationManager.add_message` at store level: create the session
on first use (appended at the end, as Python dict insertion), else update
it in place. -/
def store_add (maxTurns : Nat) (store : List (String × List Msg)) (sid : String)
    (m : Msg) : List (String × List Msg) :=
  if store.any (fun p => p.1 == sid) then
    store.map (fun p => if p.1 == sid then (p.1, add_message maxTurns p.2 m) else p)
  else store ++ [(sid, add_message maxTurns [] m)]

/-- A sequence of `add_message` calls for one session id on an initially
empty manager. -/
def runStoreAdds (maxTurns : Nat) (sid : String) (adds : List Msg) :
    List (String × List Msg) :=
  adds.foldl (fun st m => store_add maxTurns st sid m) []

/-- `ConversationManager.get_history`: unknown sessions give `[]`; the
Python guard `if max_turns:` treats both `None` and `0` as "return all";
a positive `max_turns` returns the slice `messages[-(max_turns * 2):]`. -/
def get_history (store : List (String × List Msg)) (sid : String)
    (maxTurns : Option Nat) : List (String × String) :=
  match store.find? (fun p => p.1 == sid) with
  | none => []
  | some p =>
    (match maxTurns with
      | some k => if k ≠ 0 then pyDropFrom p.2 (-(k * 2 : Nat) : Int) else p.2
      | none => p.2).map msgPair

/-! ## `AgentHandler._invoke_model` retry loop

The model backend is abstracted as `call : Nat → Except String String`
giving each attempt's outcome (the raised exception's message, or the
returned text).  The outcome records the result — `Except.error` carries
the `last_error` embedded in the final `RuntimeError` — together with the
indices of the attempts made and the `time.sleep` delays in seconds.
`BASE_RETRY_DELAY` is `1.0` in the source; `1.0 * 2 ** attempt` is an
exact small integer, so delays are modelled as naturals. -/

def MAX_RETRIES : Nat := 3

def BASE_RETRY_DELAY : Nat := 1

structure InvokeOutcome where
  result : Except (Option String) String
  attempts : List Nat
  sleeps : List Nat

/-- One pass of `for attempt in range(MAX_RETRIES)` with `r` iterations
remaining: try the call; on success return its text; on failure sleep
`BASE_RETRY_DELAY * 2 ** attempt` unless this was the final attempt; after
the loop raise carrying the last error. -/
def invokeGo (call : Nat → Except String String) :
    Nat → Nat → Option String → InvokeOutcome
  | 0, _, lastError => ⟨.error lastError, [], []⟩
  | r + 1, attempt, _ =>
    match call attempt with
    | .ok t => ⟨.ok t, [attempt], []⟩
    | .error e =>
      let rest := invokeGo call r (attempt + 1) (some e)
      if attempt < MAX_RETRIES - 1 then
        ⟨rest.result, attempt :: rest.attempts,
          (BASE_RETRY_DELAY * 2 ^ attempt) :: rest.sleeps⟩
      else ⟨rest.result, attempt :: rest.attempts, rest.sleeps⟩

/-- `AgentHandler._invoke_model`: three attempts starting at attempt 0
with no recorded error. -/
def invoke_model (call : Nat → Except String String) : InvokeOutcome :=
  invokeGo call MAX_RETRIES 0 none

/-! ## PromptManager

The registry is `PromptManager._templates`, a dict in insertion order,
modelled as an association list.  `get_prompt` is modelled for the
call without keyword arguments (the keyword path only runs
`str.format`, which none of the claims exercise). -/

/-- The four built-in templates, with their full source text. -/
def builtinTemplates : List (String × String) :=
  [("research_assistant",
    "You are AlgoDraft Research Assistant. Answer the user\x27s question " ++
    "using ONLY the provided context from research papers. " ++
    "If the answer is not contained in the context, reply with: " ++
    "\x27Insufficient context to answer.\x27\n\n" ++
    "Guidelines:\n" ++
    "- Be concise and precise\n" ++
    "- Cite the source paper when possible\n" ++
    "- Format code examples with proper markdown fenced code blocks " ++
    "(```language)\n" ++
    "- Separate explanatory text from code clearly\n" ++
    "- Use numbered lists for multi-step explanations"),
   ("code_reviewer",
    "You are AlgoDraft Code Reviewer. Examine the provided code and " ++
    "the research context.\n\n" ++
    "Instructions:\n" ++
    "- Do NOT modify the code\n" ++
    "- List missing key points from the research\n" ++
    "- Enumerate mistakes or conceptual errors with explanations\n" ++
    "- For each error, explain WHY it is incorrect\n" ++
    "- Suggest improvements as separate code blocks (```language)\n" ++
    "- Return concise numbered items\n" ++
    "- Clearly separate analysis text from any code suggestions"),
   ("code_generator",
    "You are AlgoDraft Code Generator. Generate high-quality, " ++
    "well-documented code based on the user\x27s request.\n\n" ++
    "Guidelines:\n" ++
    "- Write clean, production-ready code\n" ++
    "- Include docstrings and inline comments for complex logic\n" ++
    "- Use proper markdown code blocks with language tags (```{language})\n" ++
    "- Explain your approach BEFORE the code block\n" ++
    "- Explain key design decisions AFTER the code block\n" ++
    "- Handle edge cases and include error handling\n" ++
    "- If context from research papers is provided, incorporate " ++
    "relevant algorithms or patterns"),
   ("chat",
    "You are AlgoDraft, an intelligent AI assistant specialized in " ++
    "algorithms, data structures, and computer science research.\n\n" ++
    "Guidelines:\n" ++
    "- Be conversational but precise\n" ++
    "- When writing code, always use markdown fenced code blocks " ++
    "(```language)\n" ++
    "- Clearly separate code from explanatory text\n" ++
    "- Reference previous messages in the conversation when relevant\n" ++
    "- If you don\x27t know something, say so honestly\n" ++
    "- For complex answers, use structured formatting (headers, lists)")]

/-- `PromptManager.register_prompt`: dict insert-or-overwrite, keeping
the original position on overwrite and appending new keys. -/
def register_prompt (reg : List (String × String)) (name template : String) :
    List (String × String) :=
  if reg.any (fun p => p.1 == name) then
    reg.map (fun p => if p.1 == name then (name, template) else p)
  else reg ++ [(name, template)]

/-- `PromptManager.get_prompt` without keyword arguments: the template,
or the `ValueError` message listing the available names. -/
def get_prompt (reg : List (String × String)) (name : String) :
    Except String String :=
  match reg.find? (fun p => p.1 == name) with
  | none =>
    Except.error ("Unknown prompt template \x27" ++ name ++ "\x27. Available: " ++
      String.intercalate ", " (reg.map (fun p => p.1)))
  | some p => Except.ok p.2

/-- `PromptManager.list_prompts`. -/
def list_prompts (reg : List (String × String)) : List String :=
  reg.map (fun p => p.1)

/-- A sequence of `register_prompt` calls. -/
def applyRegs (reg : List (String × String)) (regs : List (String × String)) :
    List (String × String) :=
  regs.foldl (fun r p => register_prompt r p.1 p.2) reg

/-! ## Theorems -/

-- Sanity checks against the source's own unit tests.
example : sanitize ("  Hello  \n\n\n\nWorld  ".toList) = "Hello\n\nWorld".toList := by decide

example : sanitize ("Hello\x00World".toList) = "HelloWorld".toList := by decide

example : sanitize ("".toList) = "".toList := by decide

/-! ## Strip lemmas -/

theorem headNotWs_dropWhile (s : Str) : headNotWs (s.dropWhile isPyWs) = true := by
  induction s with
  | nil => rfl
  | cons c cs ih =>
    by_cases h : isPyWs c
    · simpa [List.dropWhile_cons, h] using ih
    · simp [List.dropWhile_cons, h, headNotWs]

theorem dropWhile_eq_self_of_headNotWs {s : Str} (h : headNotWs s = true) :
    s.dropWhile isPyWs = s := by
  cases s with
  | nil => rfl
  | cons c cs =>
    simp only [headNotWs, Bool.not_eq_true'] at h
    simp [List.dropWhile_cons, h]

theorem lastNotWs_reverse (s : Str) : headNotWs s.reverse = lastNotWs s := by
  induction s with
  | nil => rfl
  | cons a cs ih =>
    cases cs with
    | nil => rfl
    | cons b l =>
      have hne : (b :: l).reverse ≠ [] := by simp
      rw [List.reverse_cons]
      rw [show lastNotWs (a :: b :: l) = lastNotWs (b :: l) from rfl, ← ih]
      cases hrv : (b :: l).reverse with
      | nil => exact absurd hrv hne
      | cons x xs => simp [headNotWs]

theorem lstrip_headNotWs (s : Str) : headNotWs (lstrip s) = true :=
  headNotWs_dropWhile s

theorem rstrip_lastNotWs (s : Str) : lastNotWs (rstrip s) = true := by
  rw [← lastNotWs_reverse]
  simp only [rstrip, List.reverse_reverse]
  exact headNotWs_dropWhile _

theorem rstrip_eq_self_of_lastNotWs {s : Str} (h : lastNotWs s = true) : rstrip s = s := by
  rw [← lastNotWs_reverse] at h
  simp only [rstrip, dropWhile_eq_self_of_headNotWs h, List.reverse_reverse]

theorem rstrip_append_eq (s : Str) :
    rstrip s ++ (s.reverse.takeWhile isPyWs).reverse = s := by
  conv_rhs => rw [← List.reverse_reverse s, ← List.takeWhile_append_dropWhile (p := isPyWs) (l := s.reverse)]
  rw [List.reverse_append]
  rfl

theorem rstrip_headNotWs {s : Str} (h : headNotWs s = true) :
    headNotWs (rstrip s) = true := by
  cases hr : rstrip s with
  | nil => rfl
  | cons x xs =>
    have := rstrip_append_eq s
    rw [hr] at this
    cases s with
    | nil => simp at this
    | cons c cs =>
      have hx : x = c := by
        have : x :: (xs ++ (List.takeWhile isPyWs (c :: cs).reverse).reverse) = c :: cs := by
          simpa using this
        exact (List.cons.injEq _ _ _ _ ▸ this).1
      simp only [headNotWs] at h ⊢
      rw [hx]; exact h

theorem pyStrip_headNotWs (s : Str) : headNotWs (pyStrip s) = true :=
  rstrip_headNotWs (lstrip_headNotWs s)

theorem pyStrip_lastNotWs (s : Str) : lastNotWs (pyStrip s) = true :=
  rstrip_lastNotWs _

theorem pyStrip_eq_self {s : Str} (h1 : headNotWs s = true) (h2 : lastNotWs s = true) :
    pyStrip s = s := by
  simp only [pyStrip, lstrip, dropWhile_eq_self_of_headNotWs h1,
    rstrip_eq_self_of_lastNotWs h2]

theorem pyStrip_idem (s : Str) : pyStrip (pyStrip s) = pyStrip s :=
  pyStrip_eq_self (pyStrip_headNotWs s) (pyStrip_lastNotWs s)

/-! ## Lemmas about the two substitutions -/

theorem noTabNl_tail {a : Char} {cs : Str} (h : noTabNl (a :: cs) = true) :
    noTabNl cs = true := by
  cases cs with
  | nil => rfl
  | cons b l =>
    simp only [noTabNl, Bool.and_eq_true] at h
    exact h.2

theorem noTripleNl_tail {a : Char} {cs : Str} (h : noTripleNl (a :: cs) = true) :
    noTripleNl cs = true := by
  cases cs with
  | nil => rfl
  | cons b l =>
    cases l with
    | nil => rfl
    | cons c l' =>
      simp only [noTripleNl, Bool.and_eq_true] at h
      exact h.2

theorem startsNl_ne_nil {r : Str} (h : startsNl r = true) : r ≠ [] := by
  cases r with
  | nil => simp [startsNl] at h
  | cons x xs => simp

theorem isPyWs_of_isHTab {c : Char} (h : isHTab c = true) : isPyWs c = true := by
  simp only [isHTab, Bool.or_eq_true] at h
  rcases h with h | h <;> simp [isPyWs, h]

theorem lastNotWs_cons_of_ne_nil {c : Char} {r : Str} (h : r ≠ []) :
    lastNotWs (c :: r) = lastNotWs r := by
  cases r with
  | nil => exact absurd rfl h
  | cons x xs => rfl

theorem subHTabNl_cons (c : Char) (cs : Str) :
    subHTabNl (c :: cs) =
      if isHTab c && startsNl (subHTabNl cs) then subHTabNl cs else c :: subHTabNl cs :=
  rfl

theorem subTripleNl_cons (c : Char) (cs : Str) :
    subTripleNl (c :: cs) =
      if c == '\n' && startsTwoNl (subTripleNl cs) then subTripleNl cs else c :: subTripleNl cs :=
  rfl

theorem subHTabNl_ne_nil : ∀ {s : Str}, s ≠ [] → subHTabNl s ≠ [] := by
  intro s hs
  cases s with
  | nil => exact absurd rfl hs
  | cons c cs =>
    simp only [subHTabNl]
    split
    · rename_i hcond
      exact startsNl_ne_nil (Bool.and_eq_true _ _ ▸ hcond).2
    · simp

theorem subHTabNl_mem {c : Char} : ∀ {s : Str}, c ∈ subHTabNl s → c ∈ s := by
  intro s
  induction s with
  | nil => simp [subHTabNl]
  | cons a cs ih =>
    simp only [subHTabNl]
    split
    · intro hm
      exact List.mem_cons_of_mem a (ih hm)
    · intro hm
      rcases List.mem_cons.mp hm with h | h
      · exact h ▸ List.mem_cons_self a cs
      · exact List.mem_cons_of_mem a (ih h)

theorem subTripleNl_ne_nil : ∀ {s : Str}, s ≠ [] → subTripleNl s ≠ [] := by
  intro s hs
  cases s with
  | nil => exact absurd rfl hs
  | cons c cs =>
    simp only [subTripleNl]
    split
    · rename_i hcond
      have h2 := (Bool.and_eq_true _ _ ▸ hcond).2
      cases hr : subTripleNl cs with
      | nil => rw [hr] at h2; simp [startsTwoNl] at h2
      | cons x xs => simp [hr]
    · simp

theorem subTripleNl_mem {c : Char} : ∀ {s : Str}, c ∈ subTripleNl s → c ∈ s := by
  intro s
  induction s with
  | nil => simp [subTripleNl]
  | cons a cs ih =>
    simp only [subTripleNl]
    split
    · intro hm
      exact List.mem_cons_of_mem a (ih hm)
    · intro hm
      rcases List.mem_cons.mp hm with h | h
      · exact h ▸ List.mem_cons_self a cs
      · exact List.mem_cons_of_mem a (ih h)

theorem subHTabNl_headNotWs {s : Str} (h : headNotWs s = true) :
    headNotWs (subHTabNl s) = true := by
  cases s with
  | nil => rfl
  | cons c cs =>
    simp only [headNotWs, Bool.not_eq_true'] at h
    have hht : isHTab c = false := by
      cases hh : isHTab c
      · rfl
      · exact absurd (isPyWs_of_isHTab hh) (by simp [h])
    simp only [subHTabNl, hht, Bool.false_and, Bool.false_eq_true, if_false, headNotWs, h]
    rfl

theorem subTripleNl_headNotWs {s : Str} (h : headNotWs s = true) :
    headNotWs (subTripleNl s) = true := by
  cases s with
  | nil => rfl
  | cons c cs =>
    simp only [headNotWs, Bool.not_eq_true'] at h
    have hnl : (c == '\n') = false := by
      cases hh : c == '\n'
      · rfl
      · have hc : c = '\n' := by simpa using hh
        subst hc
        simp [isPyWs] at h
    simp only [subTripleNl, hnl, Bool.false_and, Bool.false_eq_true, if_false, headNotWs, h]
    rfl

theorem subHTabNl_lastNotWs : ∀ {s : Str}, lastNotWs s = true → lastNotWs (subHTabNl s) = true := by
  intro s
  induction s with
  | nil => intro _; rfl
  | cons a cs ih =>
    intro h
    cases cs with
    | nil =>
      simp only [subHTabNl, startsNl, Bool.and_false, Bool.false_eq_true, if_false]
      exact h
    | cons b l =>
      have hcs : lastNotWs (b :: l) = true := by
        rw [← lastNotWs_cons_of_ne_nil (c := a) (by simp)]; exact h
      have hr := ih hcs
      have hrn : subHTabNl (b :: l) ≠ [] := subHTabNl_ne_nil (by simp)
      rw [subHTabNl_cons a (b :: l)]
      split
      · exact hr
      · rw [lastNotWs_cons_of_ne_nil hrn]; exact hr

theorem subTripleNl_lastNotWs : ∀ {s : Str}, lastNotWs s = true → lastNotWs (subTripleNl s) = true := by
  intro s
  induction s with
  | nil => intro _; rfl
  | cons a cs ih =>
    intro h
    cases cs with
    | nil =>
      simp only [subTripleNl, startsTwoNl, Bool.and_false, Bool.false_eq_true, if_false]
      exact h
    | cons b l =>
      have hcs : lastNotWs (b :: l) = true := by
        rw [← lastNotWs_cons_of_ne_nil (c := a) (by simp)]; exact h
      have hr := ih hcs
      have hrn : subTripleNl (b :: l) ≠ [] := subTripleNl_ne_nil (by simp)
      rw [subTripleNl_cons a (b :: l)]
      split
      · exact hr
      · rw [lastNotWs_cons_of_ne_nil hrn]; exact hr

theorem subHTabNl_noTabNl (s : Str) : noTabNl (subHTabNl s) = true := by
  induction s with
  | nil => rfl
  | cons c cs ih =>
    rw [subHTabNl_cons]
    split
    · exact ih
    · rename_i hcond
      cases hr : subHTabNl cs with
      | nil => rfl
      | cons x xs =>
        rw [hr] at hcond ih
        have h1 : (isHTab c && (x == '\n')) = false := by
          cases hcx : isHTab c && (x == '\n')
          · rfl
          · exact absurd (by simpa [startsNl] using hcx) hcond
        simp [noTabNl, h1, ih]

theorem subHTabNl_eq_self {s : Str} (h : noTabNl s = true) : subHTabNl s = s := by
  induction s with
  | nil => rfl
  | cons c cs ih =>
    have ihcs := ih (noTabNl_tail h)
    rw [subHTabNl_cons, ihcs]
    split
    · rename_i hcond
      exfalso
      have h1 := Bool.and_eq_true _ _ ▸ hcond
      cases cs with
      | nil => simp [startsNl] at h1
      | cons x xs =>
        have hx : (x == '\n') = true := by simpa [startsNl] using h1.2
        simp [noTabNl, h1.1, hx] at h
    · rfl

theorem subTripleNl_noTripleNl (s : Str) : noTripleNl (subTripleNl s) = true := by
  induction s with
  | nil => rfl
  | cons c cs ih =>
    rw [subTripleNl_cons]
    split
    · exact ih
    · rename_i hcond
      cases hr : subTripleNl cs with
      | nil => rfl
      | cons x xs =>
        cases xs with
        | nil => rfl
        | cons y ys =>
          rw [hr] at hcond ih
          by_cases hcn : (c == '\n') = true
          · have hxy : (x == '\n' && y == '\n') = false := by
              cases hs2 : x == '\n' && y == '\n'
              · rfl
              · exact absurd (by simp [startsTwoNl, hcn, hs2]) hcond
            simp only [noTripleNl, hcn, Bool.true_and, hxy, Bool.and_assoc] at *
            simp [hxy, ih]
          · have hcn' : (c == '\n') = false := by simpa using hcn
            simp [noTripleNl, hcn', ih]

theorem subTripleNl_eq_self {s : Str} (h : noTripleNl s = true) : subTripleNl s = s := by
  induction s with
  | nil => rfl
  | cons c cs ih =>
    have ihcs := ih (noTripleNl_tail h)
    rw [subTripleNl_cons, ihcs]
    split
    · rename_i hcond
      exfalso
      have h1 := Bool.and_eq_true _ _ ▸ hcond
      cases cs with
      | nil => simp [startsTwoNl] at h1
      | cons x xs =>
        cases xs with
        | nil => simp [startsTwoNl] at h1
        | cons y ys =>
          have hxy : (x == '\n') = true ∧ (y == '\n') = true := by
            simpa [startsTwoNl] using h1.2
          simp [noTripleNl, h1.1, hxy.1, hxy.2] at h
    · rfl

theorem startsNl_subTripleNl : ∀ {cs : Str}, startsNl (subTripleNl cs) = true → startsNl cs = true := by
  intro cs h
  cases cs with
  | nil => simp [subTripleNl, startsNl] at h
  | cons c cs' =>
    rw [subTripleNl_cons] at h
    by_cases hcond : (c == '\n' && startsTwoNl (subTripleNl cs')) = true
    · simp [startsNl, (Bool.and_eq_true _ _ ▸ hcond).1]
    · rw [if_neg hcond] at h
      simpa [startsNl] using h

theorem subTripleNl_noTabNl {s : Str} (h : noTabNl s = true) : noTabNl (subTripleNl s) = true := by
  induction s with
  | nil => rfl
  | cons c cs ih =>
    have ihcs := ih (noTabNl_tail h)
    rw [subTripleNl_cons]
    split
    · exact ihcs
    · cases hr : subTripleNl cs with
      | nil => rfl
      | cons x xs =>
        rw [hr] at ihcs
        by_cases hct : isHTab c = true
        · by_cases hx : (x == '\n') = true
          · exfalso
            have hstart : startsNl (subTripleNl cs) = true := by
              rw [hr]; simpa [startsNl] using hx
            have hcs := startsNl_subTripleNl hstart
            cases cs with
            | nil => simp [startsNl] at hcs
            | cons d ds =>
              have hd : (d == '\n') = true := by simpa [startsNl] using hcs
              simp [noTabNl, hct, hd] at h
          · have hx' : (x == '\n') = false := by simpa using hx
            simp [noTabNl, hct, hx', ihcs]
        · have hct' : isHTab c = false := by simpa using hct
          simp [noTabNl, hct', ihcs]

/-! ## Null bytes and the sanitize pipeline -/

theorem lstrip_mem {c : Char} {s : Str} (h : c ∈ lstrip s) : c ∈ s :=
  (List.dropWhile_suffix isPyWs).subset h

theorem rstrip_mem {c : Char} {s : Str} (h : c ∈ rstrip s) : c ∈ s := by
  have h1 : c ∈ s.reverse.dropWhile isPyWs := List.mem_reverse.mp h
  exact List.mem_reverse.mp ((List.dropWhile_suffix isPyWs).subset h1)

theorem pyStrip_mem {c : Char} {s : Str} (h : c ∈ pyStrip s) : c ∈ s :=
  lstrip_mem (rstrip_mem h)

theorem removeNulls_eq_self {s : Str} (h : '\x00' ∉ s) : removeNulls s = s := by
  refine List.filter_eq_self.mpr fun a ha => ?_
  cases hc : a == '\x00'
  · simp [hc]
  · have hae : a = '\x00' := by simpa using hc
    exact absurd (hae ▸ ha) h

theorem sanitize_eq_of_no_null {t : Str} (h : '\x00' ∉ t) :
    sanitize t = subTripleNl (subHTabNl (pyStrip t)) := by
  have hx : '\x00' ∉ pyStrip t := fun hm => h (pyStrip_mem hm)
  have ha : '\x00' ∉ subHTabNl (pyStrip t) := fun hm => hx (subHTabNl_mem hm)
  have hb : '\x00' ∉ subTripleNl (subHTabNl (pyStrip t)) := fun hm => ha (subTripleNl_mem hm)
  simp only [sanitize, removeNulls_eq_self hb]

theorem sanitize_no_null (t : Str) : '\x00' ∉ sanitize t := by
  intro hm
  simp only [sanitize, removeNulls, List.mem_filter] at hm
  simpa using hm.2

/-- **C4** (corrected).  `InputProcessor.sanitize` is idempotent on every
input that contains no null byte: nulls are removed only after whitespace
normalisation, so a null can shield whitespace from the earlier stages, but
on null-free input the output is already stripped, has no space/tab before
a newline and no triple newline, hence is a fixed point of `sanitize`. -/
theorem claim_C4_sanitize_idempotent_on_null_free (t : Str) (h : '\x00' ∉ t) :
    sanitize (sanitize t) = sanitize t := by
  have hx : '\x00' ∉ pyStrip t := fun hm => h (pyStrip_mem hm)
  have ha : '\x00' ∉ subHTabNl (pyStrip t) := fun hm => hx (subHTabNl_mem hm)
  have hb : '\x00' ∉ subTripleNl (subHTabNl (pyStrip t)) := fun hm => ha (subTripleNl_mem hm)
  rw [sanitize_eq_of_no_null h]
  have hHead : headNotWs (subTripleNl (subHTabNl (pyStrip t))) = true :=
    subTripleNl_headNotWs (subHTabNl_headNotWs (pyStrip_headNotWs t))
  have hLast : lastNotWs (subTripleNl (subHTabNl (pyStrip t))) = true :=
    subTripleNl_lastNotWs (subHTabNl_lastNotWs (pyStrip_lastNotWs t))
  have hTab : noTabNl (subTripleNl (subHTabNl (pyStrip t))) = true :=
    subTripleNl_noTabNl (subHTabNl_noTabNl (pyStrip t))
  have hTriple : noTripleNl (subTripleNl (subHTabNl (pyStrip t))) = true :=
    subTripleNl_noTripleNl (subHTabNl (pyStrip t))
  show sanitize _ = _
  rw [sanitize, pyStrip_eq_self hHead hLast, subHTabNl_eq_self hTab,
    subTripleNl_eq_self hTriple, removeNulls_eq_self hb]

/-- **C4** counterexample: the claim "`sanitize` is idempotent for every
text input" fails at `"a \x00"`.  The null byte is removed only after
stripping, leaving the trailing space `"a "`; a second pass strips it. -/
theorem claim_C4_counterexample :
    sanitize (sanitize ("a \x00".toList)) ≠ sanitize ("a \x00".toList) := by decide

/-- **C4** witness. -/
theorem claim_C4_witness :
    '\x00' ∉ ("  Hello  \n\n\n\nWorld  ".toList) ∧
      sanitize (sanitize ("  Hello  \n\n\n\nWorld  ".toList)) =
        sanitize ("  Hello  \n\n\n\nWorld  ".toList) :=
  ⟨by decide, claim_C4_sanitize_idempotent_on_null_free _ (by decide)⟩

/-- **C5** (corrected).  The output of `sanitize` never contains a null
byte; on input without null bytes it contains no run of three or more
newlines (such runs are collapsed to two); and the spec's example
`sanitize("  Hello  \n\n\n\nWorld  ") = "Hello\n\nWorld"` holds.  The
3-newline bound fails for inputs with null bytes, because the null removal
runs after newline collapsing and can join two newline runs. -/
theorem claim_C5_sanitize_output_shape (t : Str) :
    '\x00' ∉ sanitize t ∧
      ('\x00' ∉ t → noTripleNl (sanitize t) = true) ∧
      sanitize ("  Hello  \n\n\n\nWorld  ".toList) = "Hello\n\nWorld".toList := by
  refine ⟨sanitize_no_null t, fun h => ?_, by decide⟩
  rw [sanitize_eq_of_no_null h]
  exact subTripleNl_noTripleNl _

/-- **C5** counterexample: the claim "for every input text the output of
`sanitize` contains no run of 3 or more consecutive newlines" fails at
`"a\n\n\x00\nb"`: the null removal (which runs last) joins the runs
`"\n\n"` and `"\n"` into `"\n\n\n"`. -/
theorem claim_C5_counterexample :
    sanitize ("a\n\n\x00\nb".toList) = "a\n\n\nb".toList ∧
      noTripleNl (sanitize ("a\n\n\x00\nb".toList)) = false := by
  constructor <;> decide

/-- **C5** witness. -/
theorem claim_C5_witness :
    '\x00' ∉ ("x\n\n\n\n\ny".toList) ∧
      noTripleNl (sanitize ("x\n\n\n\n\ny".toList)) = true :=
  ⟨by decide, (claim_C5_sanitize_output_shape _).2.1 (by decide)⟩

/-! ## Characterisation of `parse` -/

theorem loopMatches_eq (ms : List (Str × Str × Str)) :
    ∀ acc, loopMatches acc ms =
      (acc.1 ++ ms.flatMap specSecsOfMatch, acc.2.1 ++ ms.map specCodeBlockOfMatch,
        acc.2.2 ++ ms.flatMap specTextPartsOfMatch) := by
  induction ms with
  | nil => intro acc; simp [loopMatches]
  | cons m ms ih =>
    intro acc
    obtain ⟨before, lang, body⟩ := m
    simp only [loopMatches]
    rw [ih]
    simp [specSecsOfMatch, specCodeBlockOfMatch, specTextPartsOfMatch, List.flatMap_cons,
      List.append_assoc]

theorem scanAux_no_match {f : Nat} {s : Str} (h : (scanAux f s).1 = []) :
    (scanAux f s).2 = s := by
  cases f with
  | zero => rfl
  | succ f =>
    cases hf : findFence s with
    | none => simp [scanAux, hf]
    | some q =>
      obtain ⟨before, lang, body, rest⟩ := q
      simp [scanAux, hf] at h

theorem bind_specSecs_ne_nil {ms : List (Str × Str × Str)} (h : ms ≠ []) :
    ms.flatMap specSecsOfMatch ≠ [] := by
  cases ms with
  | nil => exact absurd rfl h
  | cons m ms' =>
    simp only [List.flatMap_cons, specSecsOfMatch]
    intro he
    rcases List.append_eq_nil.mp he with ⟨h1, _⟩
    rcases List.append_eq_nil.mp h1 with ⟨_, h3⟩
    exact List.noConfusion h3

theorem parse_of_matches {raw : Str} (h : (scanFences (pyStrip raw)).1 ≠ []) :
    parse raw = specAssembled (pyStrip raw) (scanFences (pyStrip raw)) := by
  have hrt : pyStrip raw ≠ [] := by
    intro he
    rw [he] at h
    exact h rfl
  simp only [parse, if_neg hrt]
  rw [loopMatches_eq]
  simp only [List.nil_append]
  have hacc2ne :
      ∀ tail : List ResponseSection,
        (scanFences (pyStrip raw)).1.flatMap specSecsOfMatch ++ tail ≠ [] := by
    intro tail he
    exact bind_specSecs_ne_nil h (List.append_eq_nil.mp he).1
  by_cases hrem : pyStrip (scanFences (pyStrip raw)).2 ≠ []
  · rw [if_pos hrem]
    rw [if_neg (hacc2ne _)]
    have hlen : 0 < (scanFences (pyStrip raw)).1.length := List.length_pos.mpr h
    simp [specAssembled, hrem, hlen]
  · rw [if_neg hrem]
    have hne : (scanFences (pyStrip raw)).1.flatMap specSecsOfMatch ≠ [] := by
      have := hacc2ne []
      simpa using this
    rw [if_neg hne]
    have hlen : 0 < (scanFences (pyStrip raw)).1.length := List.length_pos.mpr h
    simp [specAssembled, hrem, hlen]

theorem parse_of_no_match {raw : Str} (hrt : pyStrip raw ≠ [])
    (h : (scanFences (pyStrip raw)).1 = []) :
    parse raw =
      { sections := [⟨"text", pyStrip raw, []⟩], code_blocks := [],
        summary := pyStrip raw, has_code := false, raw := pyStrip raw, error := none } := by
  have htr : (scanFences (pyStrip raw)).2 = pyStrip raw := scanAux_no_match h
  simp only [parse, if_neg hrt, h, loopMatches_eq, List.nil_append, List.flatMap_nil, htr,
    pyStrip_idem, List.append_nil]
  rw [if_pos hrt]
  simp [List.intercalate]

theorem filter_text_flatMap (ms : List (Str × Str × Str)) :
    ((ms.flatMap specSecsOfMatch).filter (fun s => s.type == "text")).map
        (fun s => s.content) =
      ms.flatMap specTextPartsOfMatch := by
  induction ms with
  | nil => rfl
  | cons m ms ih =>
    simp only [List.flatMap_cons, List.filter_append, List.map_append, ih]
    congr 1
    obtain ⟨before, lang, body⟩ := m
    by_cases htb : pyStrip before ≠ [] <;>
      simp [specSecsOfMatch, specTextPartsOfMatch, htb]

theorem parse_summary_join (raw : Str) :
    (parse raw).summary =
      List.intercalate "\n\n".toList
        (((parse raw).sections.filter (fun s => s.type == "text")).map
          (fun s => s.content)) := by
  by_cases hrt : pyStrip raw = []
  · simp [parse, if_pos hrt, List.intercalate]
  · by_cases hms : (scanFences (pyStrip raw)).1 = []
    · rw [parse_of_no_match hrt hms]
      simp [List.intercalate]
    · rw [parse_of_matches hms]
      simp only [specAssembled]
      rw [List.filter_append, List.map_append, filter_text_flatMap]
      congr 1
      by_cases hrem : pyStrip (scanFences (pyStrip raw)).2 ≠ [] <;> simp [hrem]

/-- **C1** (corrected).  When the fence scan finds at least one match,
`parse` returns exactly the spec's left-to-right assembly
(`specAssembled`): an optional stripped text section before each fence, a
code section with the fence's tag (`"text"` when untagged) and stripped
body, the matching `CodeBlock`s in the same order, and a trailing stripped
text section; when the input is non-empty after stripping and no complete
fence matches (including an unterminated opening fence), the result is one
text section holding the stripped input; and `summary` always equals the
text sections' contents joined by a blank line.  The original claim is
amended to require the input to be non-empty after stripping in the
no-fence case: a blank input produces an error section instead. -/
theorem claim_C1_parse_structure (raw : Str) :
    ((scanFences (pyStrip raw)).1 ≠ [] →
        parse raw = specAssembled (pyStrip raw) (scanFences (pyStrip raw))) ∧
      (pyStrip raw ≠ [] → (scanFences (pyStrip raw)).1 = [] →
        parse raw =
          { sections := [⟨"text", pyStrip raw, []⟩], code_blocks := [],
            summary := pyStrip raw, has_code := false, raw := pyStrip raw,
            error := none }) ∧
      (parse raw).summary =
        List.intercalate "\n\n".toList
          (((parse raw).sections.filter (fun s => s.type == "text")).map
            (fun s => s.content)) :=
  ⟨fun h => parse_of_matches h, fun h1 h2 => parse_of_no_match h1 h2,
    parse_summary_join raw⟩

/-- **C1** counterexample: the empty string has no complete fenced region,
yet `parse` returns an error section rather than "exactly one text section
equal to the trimmed input". -/
theorem claim_C1_counterexample :
    (scanFences (pyStrip ("".toList))).1 = [] ∧
      (parse ("".toList)).sections ≠ [⟨"text", pyStrip ("".toList), []⟩] ∧
      (parse ("".toList)).sections = [⟨"error", emptyRespMsg, []⟩] := by
  refine ⟨rfl, by decide, rfl⟩

/-- **C1** witness: a fenced input follows the spec assembly, and an input
with an unterminated fence collapses to a single text section. -/
theorem claim_C1_witness :
    parse ("Here:\n```python\ndef f(): pass\n```\nDone.".toList) =
        specAssembled (pyStrip ("Here:\n```python\ndef f(): pass\n```\nDone.".toList))
          (scanFences (pyStrip ("Here:\n```python\ndef f(): pass\n```\nDone.".toList))) ∧
      parse ("```python\nfoo".toList) =
        { sections := [⟨"text", pyStrip ("```python\nfoo".toList), []⟩],
          code_blocks := [], summary := pyStrip ("```python\nfoo".toList),
          has_code := false, raw := pyStrip ("```python\nfoo".toList), error := none } :=
  ⟨(claim_C1_parse_structure _).1 (by decide),
    (claim_C1_parse_structure _).2.1 (by decide) (by decide)⟩

/-- **C3** (corrected).  For every `parse` result and every orchestrator
error response: `has_code` is true exactly when `code_blocks` is
non-empty; and whenever `error` is non-null, `sections` is exactly one
error section holding the error text, and `code_blocks`, `summary`,
`has_code`, `model_used`, `provider_used` hold their empty/default
values.  The original claim is amended to drop `raw` from the
default-valued fields: `parse`'s empty-input branch stores the unmodified
input in `raw` (the orchestrator error paths do leave `raw` empty). -/
theorem claim_C3_response_invariant (raw msg : Str) :
    ((parse raw).has_code = true ↔ (parse raw).code_blocks ≠ []) ∧
      (∀ e, (parse raw).error = some e →
        (parse raw).sections = [⟨"error", e, []⟩] ∧ (parse raw).code_blocks = [] ∧
          (parse raw).summary = [] ∧ (parse raw).has_code = false ∧
          (parse raw).model_used = [] ∧ (parse raw).provider_used = []) ∧
      (errorResponse msg).error = some msg ∧
      (errorResponse msg).sections = [⟨"error", msg, []⟩] ∧
      ((errorResponse msg).has_code = true ↔ (errorResponse msg).code_blocks ≠ []) ∧
      (errorResponse msg).code_blocks = [] ∧ (errorResponse msg).summary = [] ∧
      (errorResponse msg).has_code = false ∧ (errorResponse msg).raw = [] ∧
      (errorResponse msg).model_used = [] ∧ (errorResponse msg).provider_used = [] := by
  refine ⟨?_, ?_, rfl, rfl, by simp [errorResponse], rfl, rfl, rfl, rfl, rfl, rfl⟩
  · by_cases hrt : pyStrip raw = []
    · simp [parse, if_pos hrt]
    · by_cases hms : (scanFences (pyStrip raw)).1 = []
      · rw [parse_of_no_match hrt hms]; simp
      · rw [parse_of_matches hms]
        cases hm : (scanFences (pyStrip raw)).1 with
        | nil => exact absurd hm hms
        | cons m ms' => simp [specAssembled, hm]
  · intro e he
    by_cases hrt : pyStrip raw = []
    · simp only [parse, if_pos hrt] at he ⊢
      obtain rfl : emptyRespMsg = e := by simpa using he
      simp
    · by_cases hms : (scanFences (pyStrip raw)).1 = []
      · rw [parse_of_no_match hrt hms] at he; simp at he
      · rw [parse_of_matches hms] at he; simp [specAssembled] at he

/-- **C3** counterexample: on the whitespace-only input `" "` the `error`
field is set but `raw` keeps the original input, not its empty default, so
the claim's "every other field holds its default" fails for `raw`. -/
theorem claim_C3_counterexample :
    (parse (" ".toList)).error = some emptyRespMsg ∧ (parse (" ".toList)).raw ≠ [] := by
  refine ⟨rfl, by decide⟩

/-- **C3** witness. -/
theorem claim_C3_witness :
    (parse ("".toList)).error = some emptyRespMsg ∧
      (parse ("".toList)).sections = [⟨"error", emptyRespMsg, []⟩] ∧
      (parse ("".toList)).code_blocks = [] ∧ (parse ("".toList)).summary = [] ∧
      (parse ("".toList)).has_code = false ∧ (parse ("".toList)).model_used = [] ∧
      (parse ("".toList)).provider_used = [] :=
  ⟨rfl, (claim_C3_response_invariant ("".toList) []).2.1 emptyRespMsg rfl⟩

/-- **C10** (confirmed).  For every input, `parse` returns a non-empty
section list: either a single error section, or at least one text or code
section. -/
theorem claim_C10_sections_nonempty (raw : Str) :
    0 < (parse raw).sections.length ∧
      ((∃ e, (parse raw).sections = [⟨"error", e, []⟩]) ∨
        (∃ s, s ∈ (parse raw).sections ∧ (s.type = "text" ∨ s.type = "code"))) := by
  by_cases hrt : pyStrip raw = []
  · simp only [parse, if_pos hrt]
    exact ⟨by simp, Or.inl ⟨emptyRespMsg, rfl⟩⟩
  · by_cases hms : (scanFences (pyStrip raw)).1 = []
    · rw [parse_of_no_match hrt hms]
      exact ⟨by simp, Or.inr ⟨⟨"text", pyStrip raw, []⟩, by simp, Or.inl rfl⟩⟩
    · rw [parse_of_matches hms]
      cases hm : (scanFences (pyStrip raw)).1 with
      | nil => exact absurd hm hms
      | cons m ms' =>
        constructor
        · have : (m :: ms').flatMap specSecsOfMatch ≠ [] :=
            bind_specSecs_ne_nil (by simp)
          simp only [specAssembled, hm]
          cases hq : (m :: ms').flatMap specSecsOfMatch with
          | nil => exact absurd hq this
          | cons x xs => simp
        · refine Or.inr ⟨⟨"code", pyStrip m.2.2, defaultLang m.2.1⟩, ?_, Or.inr rfl⟩
          simp only [specAssembled, hm, List.flatMap_cons]
          apply List.mem_append_left
          apply List.mem_append_left
          exact List.mem_append_right _ (List.mem_singleton_self _)

/-! ## Conversation lemmas -/

theorem pyDropFrom_suffix {α : Type} (a : List α) (i : Int) : pyDropFrom a i <:+ a := by
  unfold pyDropFrom
  split
  · exact List.drop_suffix _ _
  · exact List.drop_suffix _ _

theorem pyDropFrom_sub_length_le (a : List Msg) (keep : Nat) :
    (pyDropFrom a ((a.length : Int) - keep)).length ≤ keep := by
  unfold pyDropFrom
  split <;> (rw [List.length_drop]; omega)

theorem suffix_append_right {α : Type} {l1 l2 : List α} (t : List α) (h : l1 <:+ l2) :
    l1 ++ t <:+ l2 ++ t := by
  obtain ⟨w, hw⟩ := h
  exact ⟨w, by rw [← hw, List.append_assoc]⟩

theorem filter_sys_of_trimmed (msgs' : List Msg) (i : Int) :
    ((msgs'.filter isSystem) ++
        pyDropFrom (msgs'.filter (fun x => !isSystem x)) i).filter isSystem =
      msgs'.filter isSystem := by
  rw [List.filter_append]
  have h1 : (msgs'.filter isSystem).filter isSystem = msgs'.filter isSystem :=
    List.filter_eq_self.mpr fun a ha => (List.mem_filter.mp ha).2
  have h2 : (pyDropFrom (msgs'.filter (fun x => !isSystem x)) i).filter isSystem = [] := by
    refine List.filter_eq_nil_iff.mpr fun a ha => ?_
    have hmem := (pyDropFrom_suffix _ i).subset ha
    have := (List.mem_filter.mp hmem).2
    simp only [Bool.not_eq_true'] at this
    simp [this]
  rw [h1, h2, List.append_nil]

theorem filter_not_sys_of_trimmed (msgs' : List Msg) (i : Int) :
    ((msgs'.filter isSystem) ++
        pyDropFrom (msgs'.filter (fun x => !isSystem x)) i).filter (fun x => !isSystem x) =
      pyDropFrom (msgs'.filter (fun x => !isSystem x)) i := by
  rw [List.filter_append]
  have h1 : (msgs'.filter isSystem).filter (fun x => !isSystem x) = [] := by
    refine List.filter_eq_nil_iff.mpr fun a ha => ?_
    have := (List.mem_filter.mp ha).2
    simp [this]
  have h2 : (pyDropFrom (msgs'.filter (fun x => !isSystem x)) i).filter
      (fun x => !isSystem x) = pyDropFrom (msgs'.filter (fun x => !isSystem x)) i := by
    refine List.filter_eq_self.mpr fun a ha => ?_
    exact (List.mem_filter.mp ((pyDropFrom_suffix _ i).subset ha)).2
  rw [h1, h2, List.nil_append]

theorem add_message_filter_system (maxTurns : Nat) (msgs : List Msg) (m : Msg) :
    (add_message maxTurns msgs m).filter isSystem = (msgs ++ [m]).filter isSystem := by
  unfold add_message
  split
  · exact filter_sys_of_trimmed _ _
  · rfl

theorem add_message_filter_not_system (maxTurns : Nat) (msgs : List Msg) (m : Msg) :
    (add_message maxTurns msgs m).filter (fun x => !isSystem x) <:+
      (msgs ++ [m]).filter (fun x => !isSystem x) := by
  unfold add_message
  split
  · rw [filter_not_sys_of_trimmed]
    exact pyDropFrom_suffix _ _
  · exact List.suffix_refl _

theorem add_message_nonsystem_len (maxTurns : Nat) (msgs : List Msg) (m : Msg) :
    ((add_message maxTurns msgs m).filter (fun x => !isSystem x)).length ≤ maxTurns * 2 := by
  unfold add_message
  split
  · rw [filter_not_sys_of_trimmed]
    exact pyDropFrom_sub_length_le _ _
  · rename_i hle
    have h1 := List.length_filter_le (fun x => !isSystem x) (msgs ++ [m])
    omega

theorem runAdds_append (maxTurns : Nat) (xs : List Msg) (m : Msg) :
    runAdds maxTurns (xs ++ [m]) = add_message maxTurns (runAdds maxTurns xs) m := by
  simp [runAdds, List.foldl_append]

theorem runAdds_invariant (maxTurns : Nat) (adds : List Msg) :
    ((runAdds maxTurns adds).filter (fun x => !isSystem x)).length ≤ maxTurns * 2 ∧
      (runAdds maxTurns adds).filter (fun x => !isSystem x) <:+
        adds.filter (fun x => !isSystem x) ∧
      (runAdds maxTurns adds).filter isSystem = adds.filter isSystem := by
  induction adds using List.reverseRecOn with
  | nil => exact ⟨by simp [runAdds], by simp [runAdds], by simp [runAdds]⟩
  | append_singleton xs m ih =>
    refine ⟨?_, ?_, ?_⟩
    · rw [runAdds_append]
      exact add_message_nonsystem_len _ _ _
    · rw [runAdds_append]
      refine (add_message_filter_not_system _ _ _).trans ?_
      rw [List.filter_append, List.filter_append]
      exact suffix_append_right _ ih.2.1
    · rw [runAdds_append, add_message_filter_system, List.filter_append,
        List.filter_append, ih.2.2]

theorem runAdds_eq_self {maxTurns : Nat} {adds : List Msg}
    (h : adds.length ≤ maxTurns * 2) : runAdds maxTurns adds = adds := by
  induction adds using List.reverseRecOn with
  | nil => rfl
  | append_singleton xs m ih =>
    have hxs : xs.length ≤ maxTurns * 2 := by
      have := h
      simp only [List.length_append, List.length_cons, List.length_nil] at this
      omega
    rw [runAdds_append, ih hxs]
    unfold add_message
    rw [if_neg]
    simp only [List.length_append, List.length_cons, List.length_nil]
    have := h
    simp only [List.length_append, List.length_cons, List.length_nil] at this
    omega

theorem store_add_single (maxTurns : Nat) (sid : String) (msgs : List Msg) (m : Msg) :
    store_add maxTurns [(sid, msgs)] sid m = [(sid, add_message maxTurns msgs m)] := by
  simp [store_add]

theorem foldl_store_single (maxTurns : Nat) (sid : String) :
    ∀ (adds : List Msg) (msgs : List Msg),
      adds.foldl (fun st m => store_add maxTurns st sid m) [(sid, msgs)] =
        [(sid, adds.foldl (add_message maxTurns) msgs)] := by
  intro adds
  induction adds with
  | nil => intro msgs; rfl
  | cons a as ih =>
    intro msgs
    simp only [List.foldl_cons, store_add_single]
    exact ih _

theorem runStoreAdds_eq {maxTurns : Nat} {sid : String} {adds : List Msg}
    (h : adds ≠ []) :
    runStoreAdds maxTurns sid adds = [(sid, runAdds maxTurns adds)] := by
  cases adds with
  | nil => exact absurd rfl h
  | cons a as =>
    have hfirst : store_add maxTurns [] sid a = [(sid, add_message maxTurns [] a)] := by
      simp [store_add]
    simp only [runStoreAdds, List.foldl_cons, hfirst, foldl_store_single]
    rfl

theorem get_history_single_none (sid : String) (msgs : List Msg) :
    get_history [(sid, msgs)] sid none = msgs.map msgPair := by
  simp [get_history, List.find?]

/-- **C2** (confirmed).  For every `max_turns` and every sequence of
`add_message` calls on a session: the retained non-system messages number
at most `max_turns * 2` and form a suffix (the most recent ones, in
order) of all appended non-system messages, while every system message is
always retained (the system messages of the state are exactly the system
messages appended, in order). -/
theorem claim_C2_trim_bound (maxTurns : Nat) (adds : List Msg) :
    ((runAdds maxTurns adds).filter (fun x => !isSystem x)).length ≤ maxTurns * 2 ∧
      (runAdds maxTurns adds).filter (fun x => !isSystem x) <:+
        adds.filter (fun x => !isSystem x) ∧
      (runAdds maxTurns adds).filter isSystem = adds.filter isSystem :=
  runAdds_invariant maxTurns adds

/-- **C6** (corrected).  With `max_turns` omitted `get_history` returns
the retained messages; they appear in the exact order appended whenever
the number of appends is at most `max_turns * 2` (so the trim rule never
fired).  In general the system messages appear in append order and the
retained non-system messages are a suffix of the appended non-system
messages in append order — but once a trim fires, the rebuild
`system_msgs + trimmed` moves system messages ahead of earlier-appended
non-system ones, so the full append order is not preserved. -/
theorem claim_C6_history_append_order (maxTurns : Nat) (sid : String) (adds : List Msg) :
    (adds.length ≤ maxTurns * 2 →
        get_history (runStoreAdds maxTurns sid adds) sid none = adds.map msgPair) ∧
      (get_history (runStoreAdds maxTurns sid adds) sid none).filter
          (fun q => q.1 == "system") =
        (adds.map msgPair).filter (fun q => q.1 == "system") ∧
      (get_history (runStoreAdds maxTurns sid adds) sid none).filter
          (fun q => !(q.1 == "system")) <:+
        (adds.map msgPair).filter (fun q => !(q.1 == "system")) := by
  cases hadds : adds with
  | nil => exact ⟨fun _ => rfl, rfl, List.suffix_refl _⟩
  | cons a as =>
    rw [← hadds]
    have hne : adds ≠ [] := by rw [hadds]; simp
    rw [runStoreAdds_eq hne, get_history_single_none]
    refine ⟨fun hlen => by rw [runAdds_eq_self hlen], ?_, ?_⟩
    · rw [List.filter_map, List.filter_map]
      exact congrArg (List.map msgPair) (runAdds_invariant maxTurns adds).2.2
    · rw [List.filter_map, List.filter_map,
        show ((fun q : String × String => !(q.1 == "system")) ∘ msgPair) =
          (fun x : Msg => !isSystem x) from rfl]
      obtain ⟨w, hw⟩ := (runAdds_invariant maxTurns adds).2.1
      exact ⟨w.map msgPair, by rw [← List.map_append, hw]⟩

/-- **C6** counterexample: with `max_turns = 1`, appending `user`,
`system`, `user` triggers the trim, which rebuilds the history with the
system message first — not the append order the claim promises. -/
theorem claim_C6_counterexample :
    get_history (runStoreAdds 1 "s"
        [⟨"user", "u1"⟩, ⟨"system", "s1"⟩, ⟨"user", "u2"⟩]) "s" none ≠
      [⟨"user", "u1"⟩, ⟨"system", "s1"⟩, ⟨"user", "u2"⟩].map msgPair ∧
      get_history (runStoreAdds 1 "s"
          [⟨"user", "u1"⟩, ⟨"system", "s1"⟩, ⟨"user", "u2"⟩]) "s" none =
        [("system", "s1"), ("user", "u1"), ("user", "u2")] := by
  constructor <;> decide

/-- **C6** witness. -/
theorem claim_C6_witness :
    get_history (runStoreAdds 2 "s" [⟨"user", "q"⟩, ⟨"assistant", "a"⟩]) "s" none =
      [Msg.mk "user" "q", Msg.mk "assistant" "a"].map msgPair :=
  (claim_C6_history_append_order 2 "s" _).1 (by decide)

/-- **C7** (corrected).  `get_history` returns `[]` for a session id not
present in the store (never an error); for a *positive* `max_turns` it
returns the most recent `min(max_turns * 2, n)` retained messages; but
`max_turns = 0` falls into the falsy `if max_turns:` branch and returns
all messages instead of the empty list the claim's "any non-negative
max_turns" wording implies. -/
theorem claim_C7_get_history (store : List (String × List Msg)) (sid : String)
    (mt : Option Nat) (k : Nat) (msgs : List Msg) :
    ((∀ p ∈ store, p.1 ≠ sid) → get_history store sid mt = []) ∧
      (1 ≤ k →
        get_history [(sid, msgs)] sid (some k) =
          (msgs.map msgPair).drop (msgs.length - k * 2)) ∧
      get_history [(sid, msgs)] sid (some 0) = msgs.map msgPair := by
  refine ⟨?_, ?_, ?_⟩
  · intro h
    have hfind : store.find? (fun p => p.1 == sid) = none :=
      List.find?_eq_none.mpr fun p hp => by simpa using h p hp
    simp [get_history, hfind]
  · intro hk
    have hfind : List.find? (fun p => p.1 == sid) [(sid, msgs)] = some (sid, msgs) := by
      simp [List.find?]
    have hkne : k ≠ 0 := by omega
    simp only [get_history, hfind, if_pos hkne]
    unfold pyDropFrom
    rw [if_pos (by omega : -((k * 2 : Nat) : Int) < 0)]
    rw [List.map_drop]
    congr 1
    omega
  · have hfind : List.find? (fun p => p.1 == sid) [(sid, msgs)] = some (sid, msgs) := by
      simp [List.find?]
    simp [get_history, hfind]

/-- **C7** counterexample: after one message, `get_history` with
`max_turns = 0` returns that message rather than the empty list of "the
most recent `0 * 2` messages". -/
theorem claim_C7_counterexample :
    get_history (store_add 10 [] "s" ⟨"user", "hi"⟩) "s" (some 0) = [("user", "hi")] ∧
      get_history (store_add 10 [] "s" ⟨"user", "hi"⟩) "s" (some 0) ≠ [] := by
  constructor <;> decide

/-- **C7** witness. -/
theorem claim_C7_witness :
    get_history [("a", [Msg.mk "user" "x"])] "s" (some 5) = [] ∧
      get_history [("s", [Msg.mk "user" "a", Msg.mk "user" "b", Msg.mk "user" "c"])] "s"
          (some 1) =
        ([Msg.mk "user" "a", Msg.mk "user" "b", Msg.mk "user" "c"].map msgPair).drop
          ([Msg.mk "user" "a", Msg.mk "user" "b", Msg.mk "user" "c"].length - 1 * 2) :=
  ⟨(claim_C7_get_history [("a", [Msg.mk "user" "x"])] "s" (some 5) 0 []).1 (by decide),
    (claim_C7_get_history [] "s" none 1
        [Msg.mk "user" "a", Msg.mk "user" "b", Msg.mk "user" "c"]).2.1 (by decide)⟩

/-- **C8** (confirmed).  If every attempt raises, `_invoke_model` makes
exactly the three attempts 0, 1, 2, sleeps 1 then 2 seconds after the two
non-final failures, and fails carrying the last (third) error; if an
attempt succeeds, its text is returned, no later attempt is made, and
only the earlier failures' backoff sleeps (`2^attempt` seconds) happen. -/
theorem claim_C8_retry_policy (call : Nat → Except String String) :
    (∀ e0 e1 e2, call 0 = .error e0 → call 1 = .error e1 → call 2 = .error e2 →
        invoke_model call = ⟨.error (some e2), [0, 1, 2], [1, 2]⟩) ∧
      (∀ t, call 0 = .ok t → invoke_model call = ⟨.ok t, [0], []⟩) ∧
      (∀ e0 t, call 0 = .error e0 → call 1 = .ok t →
        invoke_model call = ⟨.ok t, [0, 1], [1]⟩) ∧
      (∀ e0 e1 t, call 0 = .error e0 → call 1 = .error e1 → call 2 = .ok t →
        invoke_model call = ⟨.ok t, [0, 1, 2], [1, 2]⟩) := by
  refine ⟨?_, ?_, ?_, ?_⟩
  · intro e0 e1 e2 h0 h1 h2
    simp [invoke_model, MAX_RETRIES, invokeGo, h0, h1, h2, BASE_RETRY_DELAY]
  · intro t h0
    simp [invoke_model, MAX_RETRIES, invokeGo, h0]
  · intro e0 t h0 h1
    simp [invoke_model, MAX_RETRIES, invokeGo, h0, h1, BASE_RETRY_DELAY]
  · intro e0 e1 t h0 h1 h2
    simp [invoke_model, MAX_RETRIES, invokeGo, h0, h1, h2, BASE_RETRY_DELAY]

/-- **C8** witness. -/
theorem claim_C8_witness :
    invoke_model (fun _ => Except.error "boom") =
      ⟨Except.error (some "boom"), [0, 1, 2], [1, 2]⟩ :=
  (claim_C8_retry_policy _).1 "boom" "boom" "boom" rfl rfl rfl

/-! ### Registry lemmas -/

theorem list_prompts_register (reg : List (String × String)) (name tmpl : String) :
    list_prompts (register_prompt reg name tmpl) =
      if reg.any (fun p => p.1 == name) then list_prompts reg
      else list_prompts reg ++ [name] := by
  unfold register_prompt list_prompts
  split <;> rename_i hc
  · rw [List.map_map]
    apply List.map_congr_left
    intro p _
    by_cases hp : (p.1 == name) = true
    · simp only [Function.comp_apply, if_pos hp]
      exact (beq_iff_eq.mp hp).symm
    · have hp2 : p.1 ≠ name := by simpa using hp
      simp [hp2]
  · rw [List.map_append]
    rfl

theorem mem_list_prompts_applyRegs {b : String} :
    ∀ (regs : List (String × String)) (reg : List (String × String)),
      b ∈ list_prompts reg → b ∈ list_prompts (applyRegs reg regs) := by
  intro regs
  induction regs with
  | nil => intro reg h; exact h
  | cons r rs ih =>
    intro reg h
    simp only [applyRegs, List.foldl_cons]
    apply ih
    rw [list_prompts_register]
    split
    · exact h
    · exact List.mem_append_left _ h

theorem find?_map_update (name tmpl : String) :
    ∀ (reg : List (String × String)), reg.any (fun p => p.1 == name) = true →
      (reg.map (fun p => if p.1 == name then (name, tmpl) else p)).find?
          (fun p => p.1 == name) = some (name, tmpl) := by
  intro reg
  induction reg with
  | nil => intro h; simp at h
  | cons q qs ih =>
    intro h
    by_cases hq : (q.1 == name) = true
    · simp only [List.map_cons, if_pos hq]
      exact List.find?_cons_of_pos (p := fun q : String × String => q.1 == name) _ (by simp)
    · simp only [List.map_cons, if_neg hq]
      rw [List.find?_cons_of_neg (p := fun q : String × String => q.1 == name) _ (by simpa using hq)]
      apply ih
      simpa [List.any_cons, hq] using h

theorem find?_append_some {p : String × String → Bool} :
    ∀ {l1 : List (String × String)} {q : String × String},
      l1.find? p = some q → ∀ l2, (l1 ++ l2).find? p = some q := by
  intro l1
  induction l1 with
  | nil => intro q h _; simp at h
  | cons a as ih =>
    intro q h l2
    by_cases ha : p a = true
    · rw [List.find?_cons_of_pos _ ha] at h
      rw [List.cons_append, List.find?_cons_of_pos _ ha]
      exact h
    · rw [List.find?_cons_of_neg _ ha] at h
      rw [List.cons_append, List.find?_cons_of_neg _ ha]
      exact ih h l2

theorem find?_append_none {p : String × String → Bool} :
    ∀ {l1 : List (String × String)} (l2), l1.find? p = none →
      (l1 ++ l2).find? p = l2.find? p := by
  intro l1
  induction l1 with
  | nil => intro l2 _; rfl
  | cons a as ih =>
    intro l2 h
    by_cases ha : p a = true
    · rw [List.find?_cons_of_pos _ ha] at h
      exact absurd h (by simp)
    · rw [List.find?_cons_of_neg _ ha] at h
      rw [List.cons_append, List.find?_cons_of_neg _ ha]
      exact ih l2 h

theorem get_prompt_register_self (reg : List (String × String)) (name tmpl : String) :
    get_prompt (register_prompt reg name tmpl) name = Except.ok tmpl := by
  unfold register_prompt
  split <;> rename_i hc
  · unfold get_prompt
    rw [find?_map_update name tmpl reg hc]
  · unfold get_prompt
    cases hca : reg.any (fun p => p.1 == name) with
    | true => exact absurd hca hc
    | false =>
    have hnone : reg.find? (fun p => p.1 == name) = none :=
      List.find?_eq_none.mpr (List.any_eq_false.mp hca)
    rw [find?_append_none _ hnone]
    simp [List.find?]

theorem find?_map_update_ne {name n' : String} (t' : String) (hne : n' ≠ name) :
    ∀ (reg : List (String × String)) (q : String × String),
      reg.find? (fun p => p.1 == name) = some q →
      (reg.map (fun p => if p.1 == n' then (n', t') else p)).find?
          (fun p => p.1 == name) = some q := by
  intro reg
  induction reg with
  | nil => intro q h; simp at h
  | cons a as ih =>
    intro q h
    by_cases ha : (a.1 == name) = true
    · rw [List.find?_cons_of_pos (p := fun q : String × String => q.1 == name) _ ha] at h
      have ha1 : ¬ (a.1 == n') = true := by
        have h1 : a.1 = name := beq_iff_eq.mp ha
        simp [h1]
        exact fun hh => hne hh.symm
      simp only [List.map_cons, if_neg ha1]
      rw [List.find?_cons_of_pos (p := fun q : String × String => q.1 == name) _ ha]
      exact h
    · rw [List.find?_cons_of_neg (p := fun q : String × String => q.1 == name) _ ha] at h
      simp only [List.map_cons]
      by_cases ha2 : (a.1 == n') = true
      · rw [if_pos ha2]
        rw [List.find?_cons_of_neg (p := fun q : String × String => q.1 == name) _ (by simp [hne])]
        exact ih q h
      · rw [if_neg ha2]
        rw [List.find?_cons_of_neg (p := fun q : String × String => q.1 == name) _ ha]
        exact ih q h

theorem get_prompt_ok_register_ne {reg : List (String × String)} {name v : String}
    (h : get_prompt reg name = Except.ok v) (n' t' : String) (hne : n' ≠ name) :
    get_prompt (register_prompt reg n' t') name = Except.ok v := by
  unfold get_prompt at h
  cases hfind : reg.find? (fun p => p.1 == name) with
  | none => rw [hfind] at h; simp at h
  | some q =>
    rw [hfind] at h
    simp only [Except.ok.injEq] at h
    unfold register_prompt
    split
    · unfold get_prompt
      rw [find?_map_update_ne t' hne reg q hfind]
      simp [h]
    · unfold get_prompt
      rw [find?_append_some hfind]
      simp [h]

theorem get_prompt_ok_applyRegs {name v : String} :
    ∀ (regs : List (String × String)) (reg : List (String × String)),
      get_prompt reg name = Except.ok v → (∀ p ∈ regs, p.1 ≠ name) →
      get_prompt (applyRegs reg regs) name = Except.ok v := by
  intro regs
  induction regs with
  | nil => intro reg h _; exact h
  | cons r rs ih =>
    intro reg h hall
    simp only [applyRegs, List.foldl_cons]
    exact ih _ (get_prompt_ok_register_ne h r.1 r.2 (hall r (List.mem_cons_self _ _)))
      fun p hp => hall p (List.mem_cons_of_mem _ hp)

theorem name_mem_list_prompts_register (reg : List (String × String))
    (name tmpl : String) : name ∈ list_prompts (register_prompt reg name tmpl) := by
  rw [list_prompts_register]
  split <;> rename_i hc
  · obtain ⟨p, hp, hpe⟩ := List.any_eq_true.mp hc
    exact List.mem_map.mpr ⟨p, hp, (beq_iff_eq.mp hpe)⟩
  · exact List.mem_append_right _ (List.mem_singleton_self _)

/-- **C9** (confirmed).  After any sequence of `register_prompt` calls
(overwrites included) the four built-in names remain present, and a
registration stays visible to every later `get_prompt` / `list_prompts`
caller as long as the name is not registered again. -/
theorem claim_C9_registry_invariant (regs regs2 : List (String × String))
    (name tmpl : String) :
    (∀ b ∈ ["research_assistant", "code_reviewer", "code_generator", "chat"],
        b ∈ list_prompts (applyRegs builtinTemplates regs)) ∧
      ((∀ p ∈ regs2, p.1 ≠ name) →
        get_prompt
            (applyRegs (register_prompt (applyRegs builtinTemplates regs) name tmpl)
              regs2) name = Except.ok tmpl ∧
          name ∈ list_prompts
            (applyRegs (register_prompt (applyRegs builtinTemplates regs) name tmpl)
              regs2)) := by
  constructor
  · intro b hb
    apply mem_list_prompts_applyRegs regs builtinTemplates
    simp only [List.mem_cons, List.not_mem_nil, or_false] at hb
    rcases hb with rfl | rfl | rfl | rfl <;> simp [list_prompts, builtinTemplates]
  · intro h2
    refine ⟨?_, ?_⟩
    · exact get_prompt_ok_applyRegs regs2 _ (get_prompt_register_self _ name tmpl) h2
    · exact mem_list_prompts_applyRegs regs2 _
        (name_mem_list_prompts_register _ name tmpl)

/-- **C9** witness. -/
theorem claim_C9_witness :
    "research_assistant" ∈ list_prompts (applyRegs builtinTemplates [("chat", "X")]) ∧
      (get_prompt
            (applyRegs (register_prompt (applyRegs builtinTemplates [("chat", "X")])
              "my_template" "T") [("other", "Y")]) "my_template" = Except.ok "T" ∧
        "my_template" ∈ list_prompts
          (applyRegs (register_prompt (applyRegs builtinTemplates [("chat", "X")])
            "my_template" "T") [("other", "Y")])) :=
  ⟨(claim_C9_registry_invariant [("chat", "X")] [("other", "Y")] "my_template" "T").1
      "research_assistant" (by decide),
    (claim_C9_registry_invariant [("chat", "X")] [("other", "Y")] "my_template" "T").2
      (by decide)⟩
